import Mathlib

/-! tidump: chunk planning, value escaping and INSERT batching

A shallow embedding of the core of `tidump.go` (and of the chunk loop of
`tables.go`), with the properties of its natural-language specification stated
over that embedding.

Modelling conventions.

* A Go `string` / `[]byte` is a list of bytes (`Bytes`).  Text constants are
  given through `str`, which maps an ASCII literal to its bytes.
* Go `int` is a 64-bit two's-complement integer.  It is modelled as an `Int`
  together with `wrapInt`, applied after each addition and subtraction of the
  chunk loop, so that overflow behaves as in the program.
* The float64 arithmetic of `discoverRowsPerChunk` is modelled bit-exactly with
  integer arithmetic (round to nearest, ties to even, 53 significant bits).
* Loops whose termination depends on the data take a fuel argument and return
  `none` when the fuel runs out; results are stated for every sufficient fuel.
* The database, the file system and the logger are external.  A query result
  is a list of scan results (`none` is a failing `rows.Scan`), the data file is
  the list of bytes written to it, and `log.Fatal` / `check` ending the process
  is the outcome `Outcome.fatal`.  Writes to the file are assumed to succeed.
-/

namespace Tidump

/-! ## Data model -/

/-- A Go string or byte slice. -/
abbrev Bytes := List UInt8

/-- The bytes of an ASCII string constant. -/
def str (s : String) : Bytes := s.toList.map (fun c => UInt8.ofNat c.toNat)

/-- Constant `bufferLimit` of tidump.go (bytes per batched INSERT). -/
def bufferLimit : Nat := 1024

/-- Constant `fileLimit` of tidump.go (`100 * 1024`). -/
def fileLimit : Nat := 102400

/-- Reduction of a mathematical integer to the 64-bit signed range (Go `int`). -/
def wrapInt (x : Int) : Int :=
  (x + 9223372036854775808) % 18446744073709551616 - 9223372036854775808

/-! ## discoverRowsPerChunk (tidump.go:153-155)

The function works in float64.  The model below follows IEEE 754 binary64 with
integer arithmetic: a non-negative float is a natural number, or a pair
`(m, s)` standing for `m * 2 ^ s`, and every rounding is to nearest, ties to
even, at 53 significant bits. -/

/-- Floor of the binary logarithm by repeated halving, `fuel` halvings at most. -/
def log2Fuel : Nat → Nat → Nat
  | 0, _ => 0
  | fuel + 1, n => if n < 2 then 0 else log2Fuel fuel (n / 2) + 1

/-- Floor of the binary logarithm of `n < 2 ^ 64` (and 0 for `n = 0`). -/
def log2 (n : Nat) : Nat := log2Fuel 64 n

/-- The magnitude of `float64(x)` for an integer of magnitude `n ≤ 2 ^ 63`: `n`
itself below `2 ^ 53`, otherwise `n` rounded to 53 significant bits. -/
def roundFloat64 (n : Nat) : Nat :=
  if n < 2 ^ 53 then n
  else
    let k := log2 n - 52
    let m := n / 2 ^ k
    let r := n % 2 ^ k
    let m1 := if 2 * r > 2 ^ k ∨ (2 * r = 2 ^ k ∧ m % 2 = 1) then m + 1 else m
    m1 * 2 ^ k

/-- The float64 quotient `a / b` of two positive floats with integer values, as
the pair `(m, s)` with value `m * 2 ^ s`: `e` is the binary exponent of the
exact quotient and `m` the exact quotient scaled by `2 ^ (52 - e)` and rounded. -/
def divFloat64 (a b : Nat) : Nat × Int :=
  let d : Int := (log2 a : Int) - (log2 b : Int)
  let ge : Bool :=
    if 0 ≤ d then decide (b * 2 ^ d.toNat ≤ a) else decide (b ≤ a * 2 ^ (-d).toNat)
  let e : Int := if ge then d else d - 1
  let s : Int := e - 52
  let n := if s < 0 then a * 2 ^ (-s).toNat else a
  let dn := if s < 0 then b else b * 2 ^ s.toNat
  let m := n / dn
  let r := n % dn
  let m1 := if 2 * r > dn ∨ (2 * r = dn ∧ m % 2 = 1) then m + 1 else m
  (m1, s)

/-- The largest integer not above `m * 2 ^ s`. -/
def floorFloat64 (x : Nat × Int) : Nat :=
  if 0 ≤ x.2 then x.1 * 2 ^ x.2.toNat else x.1 / 2 ^ (-x.2).toNat

/-- The least integer not below `m * 2 ^ s`. -/
def ceilFloat64 (x : Nat × Int) : Nat :=
  if 0 ≤ x.2 then x.1 * 2 ^ x.2.toNat
  else (x.1 + 2 ^ (-x.2).toNat - 1) / 2 ^ (-x.2).toNat

/-- Function `discoverRowsPerChunk`:
`int(math.Abs(math.Floor(float64(limit) / float64(avgRowLength))))`, for 64-bit
`int` arguments.  `math.Abs(math.Floor(q))` is the floor of `|q|` for a
quotient `q ≥ 0` and the ceiling of `|q|` for `q < 0`.  A divisor 0 gives an
infinite or NaN quotient, and the quotient of the minimum int64 by 1 or -1 is
`2 ^ 63`; Go leaves the conversion of such a value to `int` to the
implementation, and the value given is the one of amd64, the minimum int64. -/
def discoverRowsPerChunk (avgRowLength limit : Int) : Int :=
  let a := roundFloat64 limit.natAbs
  let b := roundFloat64 avgRowLength.natAbs
  if b = 0 then -9223372036854775808
  else if a = 0 then 0
  else
    let q := divFloat64 a b
    let v :=
      if decide (limit < 0) ≠ decide (avgRowLength < 0) then ceilFloat64 q
      else floorFloat64 q
    if v < 9223372036854775808 then (v : Int) else -9223372036854775808

/-! ## The chunk loop (tidump.go:193-209, tables.go:39-58) -/

/-- The loop `for i := min; i < max; i += rowsPerChunk` of `dumpTable` and of
`prepareDumpTable`, which differ only in the sentinel written for an unbounded
side (`-1` and `0`).  The result is the list of `(start, end)` pairs handed to
the dump worker, in order; the second argument after the fuel is the current
value of `i`. -/
def chunkLoop (unbounded min max rowsPerChunk : Int) :
    Nat → Int → Option (List (Int × Int))
  | 0, _ => none
  | fuel + 1, i =>
    if i < max then
      let start := if i = min then unbounded else i
      let end0 := wrapInt (wrapInt (i + rowsPerChunk) - 1)
      let end1 := if end0 > max then unbounded else end0
      (chunkLoop unbounded min max rowsPerChunk fuel (wrapInt (i + rowsPerChunk))).map
        (fun rest => (start, end1) :: rest)
    else some []

/-- The chunk loop of `dumpTable` (tidump.go), sentinel `-1`, started at `min`. -/
def dumpTableLoop (min max rowsPerChunk : Int) (fuel : Nat) : Option (List (Int × Int)) :=
  chunkLoop (-1) min max rowsPerChunk fuel min

/-- The chunk loop of `prepareDumpTable` (tables.go), sentinel `0`, started at `min`. -/
def prepareDumpTableLoop (min max rowsPerFile : Int) (fuel : Nat) :
    Option (List (Int × Int)) :=
  chunkLoop 0 min max rowsPerFile fuel min

/-- Function `dumpTable`: the `(start, end)` pairs of the calls to
`dumpTableData`, given the table statistics and the result `(min, max)` of
`discoverTableMinMax`.  There is no result when the loop does not finish within
the fuel. -/
def dumpTable (avgRowLength : Int) (dataLength : Nat) (min max : Int) (fuel : Nat) :
    Option (List (Int × Int)) :=
  if dataLength < fileLimit then some [(-1, -1)]
  else dumpTableLoop min max (discoverRowsPerChunk avgRowLength fileLimit) fuel

/-- The pair the loop body computes at index `i` when no addition overflows. -/
def chunkAt (unbounded min max rowsPerChunk i : Int) : Int × Int :=
  (if i = min then unbounded else i,
   if i + rowsPerChunk - 1 > max then unbounded else i + rowsPerChunk - 1)

/-- Inputs on which the chunk loop does not overflow a 64-bit `int`. -/
structure InRange (min max rowsPerChunk : Int) : Prop where
  min_lo : -9223372036854775808 ≤ min
  step_pos : 1 ≤ rowsPerChunk
  max_hi : max + rowsPerChunk < 9223372036854775808

/-! ## The WHERE clause and the file name (tidump.go:244-261) -/

/-- The row filter of a chunk query: the `where` string of `dumpTableData`. -/
inductive Where where
  | all : Where
  | lt : Int → Where
  | between : Int → Int → Where
  | gt : Int → Where
  deriving DecidableEq

/-- The `where` text `dumpTableData` builds from `(start, end)`:
empty, `pk < end`, `pk BETWEEN start AND end` or `pk > start`. -/
def whereClause (start end1 : Int) : Where :=
  if start = -1 ∧ end1 ≠ -1 then Where.lt end1
  else if start ≠ -1 ∧ end1 ≠ -1 then Where.between start end1
  else if start ≠ -1 ∧ end1 = -1 then Where.gt start
  else Where.all

/-- SQL meaning of the filter on an integer primary-key value. -/
def Where.holds : Where → Int → Bool
  | Where.all, _ => true
  | Where.lt e, k => decide (k < e)
  | Where.between s e, k => decide (s ≤ k) && decide (k ≤ e)
  | Where.gt s, k => decide (s < k)

/-- Whether the row with primary key `k` is selected by the chunk `(start, end)`. -/
def chunkHolds (c : Int × Int) (k : Int) : Bool := (whereClause c.1 c.2).holds k

/-- The ASCII digit for `d < 10`. -/
def digitByte (d : Nat) : UInt8 := UInt8.ofNat (48 + d)

/-- Decimal rendering of a natural number, as `%d` prints it. -/
def formatNat (n : Nat) : Bytes :=
  if n = 0 then [48] else (Nat.digits 10 n).reverse.map digitByte

/-- Decimal rendering of an integer, as `fmt.Sprintf("%d", z)` prints it. -/
def formatInt (z : Int) : Bytes :=
  if z < 0 then 45 :: formatNat z.natAbs else formatNat z.natAbs

/-- The variable named prefix in `dumpTableData`: the part of the data-file
name that identifies the chunk (`.0`, `.<start>` or empty). -/
def fileSuffix (start end1 : Int) : Bytes :=
  if start = -1 ∧ end1 ≠ -1 then 46 :: formatInt 0
  else if start ≠ -1 ∧ end1 ≠ -1 then 46 :: formatInt start
  else if start ≠ -1 ∧ end1 = -1 then 46 :: formatInt start
  else []

/-- The data-file path `dumpdir/<schema>.<table><suffix>.sql`. -/
def dataFile (schema table : Bytes) (start end1 : Int) : Bytes :=
  str "dumpdir/" ++ schema ++ str "." ++ table ++ fileSuffix start end1 ++ str ".sql"

/-! ## escape (tidump.go:347-394) -/

/-- The `switch` of `escape`: the pair `(flag, escape)` after it, for byte `b`.
The bytes are CR (13), LF (10), backslash (92), single quote (39), double
quote (34) and SUB (26, written as `Z` = 90); `escape` keeps its zero value
when no case applies. -/
def escapeByte (b : UInt8) : Bool × UInt8 :=
  if b = 13 then (true, 13)
  else if b = 10 then (true, 10)
  else if b = 92 then (true, 92)
  else if b = 39 then (true, 39)
  else if b = 34 then (true, 34)
  else if b = 26 then (true, 90)
  else (false, 0)

/-- The `for` loop of `escape` over the remaining bytes of `tempStr`, with the
output array `desc` and the write index `j`; returns the final `(desc, j)`. -/
def escapeLoop : Bytes → Bytes → Nat → Bytes × Nat
  | [], desc, j => (desc, j)
  | c :: rest, desc, j =>
    if (escapeByte c).1 then
      escapeLoop rest ((desc.set j 92).set (j + 1) (escapeByte c).2) (j + 2)
    else
      escapeLoop rest (desc.set j c) (j + 1)

/-- Function `escape`: an empty source returns at once; otherwise `desc` is
allocated with twice the source length and the result is `desc[0:j]`. -/
def escape (source : Bytes) : Bytes :=
  if source.length = 0 then []
  else
    let r := escapeLoop source (List.replicate (source.length * 2) 0) 0
    r.1.take r.2

/-- The bytes the specification lists as escaped. -/
def isSpecial (b : UInt8) : Bool :=
  b = 13 || b = 10 || b = 92 || b = 39 || b = 34 || b = 26

/-- The representative byte written after the backslash. -/
def rep (b : UInt8) : UInt8 := if b = 26 then 90 else b

/-- The specification's image of one byte. -/
def encodeByte (b : UInt8) : Bytes := if isSpecial b then [92, rep b] else [b]

/-- The escaper as the specification words it: the concatenation, over the
bytes in order, of their images. -/
def escapeSpec : Bytes → Bytes
  | [] => []
  | b :: s => encodeByte b ++ escapeSpec s

/-! ## The dump worker (tidump.go:238-331) -/

/-- Function `strings.Join`. -/
def stringsJoin : List Bytes → Bytes → Bytes
  | [], _ => []
  | [x], _ => x
  | x :: y :: rest, sep => x ++ sep ++ stringsJoin (y :: rest) sep

/-- Function `quoteIdentifier`: the identifier between two backticks (byte 96). -/
def quoteIdentifier (identifier : Bytes) : Bytes := [96] ++ identifier ++ [96]

/-- One entry of `result`: `NULL` for a nil column, otherwise the escaped value
between single quotes (byte 39). -/
def formatValue : Option Bytes → Bytes
  | none => str "NULL"
  | some raw => [39] ++ escape raw ++ [39]

/-- The text `values` of one scanned row: `(v1,v2,...)`. -/
def formatRow (rawResult : List (Option Bytes)) : Bytes :=
  str "(" ++ stringsJoin (rawResult.map formatValue) (str ",") ++ str ")"

/-- The worker's `buffer` and the bytes written to its file so far. -/
structure DumpState where
  buffer : Bytes
  file : Bytes
  deriving DecidableEq

/-- The text that opens a statement, up to and including the line break after
`VALUES`. -/
def insertHeader (table colsstr : Bytes) : Bytes :=
  str "INSERT INTO " ++ table ++ str " (" ++ colsstr ++ str ") VALUES \n"

/-- The part of the row loop after `values` is built (tidump.go:301-315): the
flush test, then either the start of a statement or one more tuple. -/
def writeRow (limit : Nat) (table colsstr : Bytes) (st : DumpState) (values : Bytes) :
    DumpState :=
  let st1 : DumpState :=
    if st.buffer.length + values.length > limit then
      { buffer := [], file := st.file ++ (st.buffer ++ str ";\n") }
    else st
  if st1.buffer.length = 0 then
    { buffer := st1.buffer ++ (insertHeader table colsstr ++ values), file := st1.file }
  else
    { buffer := st1.buffer ++ str ",\n" ++ values, file := st1.file }

/-- The flush after the loop (tidump.go:321-327). -/
def finalFlush (st : DumpState) : DumpState :=
  if st.buffer.length > 0 then
    { buffer := [], file := st.file ++ (st.buffer ++ str ";\n") }
  else st

/-- How a run of the worker ends: the process is terminated (`log.Fatal`), or
the function returns and the file holds the given bytes. -/
inductive Outcome where
  | fatal : Outcome
  | returned : Bytes → Outcome
  deriving DecidableEq

/-- The loop `for rows.Next()` of `dumpTableData`.  A scan result `none` is a
failing `rows.Scan`: the function prints a message and returns. -/
def rowsLoop (limit : Nat) (table colsstr : Bytes) :
    DumpState → List (Option (List (Option Bytes))) → Outcome
  | st, [] => Outcome.returned (finalFlush st).file
  | st, none :: _ => Outcome.returned st.file
  | st, some rawResult :: rest =>
    rowsLoop limit table colsstr (writeRow limit table colsstr st (formatRow rawResult)) rest

/-- Function `dumpTableData` from the query on: `queryErr` and `createErr` say
whether `db.Query` and `os.Create` fail (each is followed by `check`). -/
def dumpTableData (queryErr createErr : Bool) (table : Bytes) (cols : List Bytes)
    (rows : List (Option (List (Option Bytes)))) : Outcome :=
  if queryErr then Outcome.fatal
  else if createErr then Outcome.fatal
  else rowsLoop bufferLimit table (stringsJoin (cols.map quoteIdentifier) (str ","))
    { buffer := [], file := [] } rows

/-- The batching loop on rows that all scan: the state after the given tuples. -/
def batchLoop (limit : Nat) (table colsstr : Bytes) (st : DumpState) (tuples : List Bytes) :
    DumpState :=
  tuples.foldl (writeRow limit table colsstr) st

/-- The bytes in the data file after the batching loop and the final flush. -/
def writeTuples (limit : Nat) (table colsstr : Bytes) (tuples : List Bytes) : Bytes :=
  (finalFlush (batchLoop limit table colsstr { buffer := [], file := [] } tuples)).file

/-- One complete statement for a run of tuples. -/
def insertStatement (table colsstr : Bytes) (run : List Bytes) : Bytes :=
  insertHeader table colsstr ++ stringsJoin run (str ",\n") ++ str ";\n"

/-- The file-format contract: `out` is the concatenation of complete statements
over non-empty runs of consecutive tuples that together are the input tuples. -/
def IsInsertStatements (table colsstr : Bytes) (tuples : List Bytes) (out : Bytes) : Prop :=
  ∃ runs : List (List Bytes), (∀ run ∈ runs, run ≠ []) ∧ runs.flatten = tuples
    ∧ out = (runs.map (insertStatement table colsstr)).flatten

/-- The text that follows the first tuple of a statement. -/
def tailJoin : List Bytes → Bytes
  | [] => []
  | t :: ts => str ",\n" ++ t ++ tailJoin ts

/-! # Theorems -/

/-! ## escape -/

theorem take_set_snoc {α : Type} (l : List α) (j : Nat) (x : α) (h : j < l.length) :
    (l.set j x).take (j + 1) = l.take j ++ [x] := by
  induction l generalizing j with
  | nil => simp at h
  | cons a t ih =>
    cases j with
    | zero => simp
    | succ k =>
      simp only [List.length_cons, Nat.add_lt_add_iff_right] at h
      simp [ih k h]

theorem escapeByte_flag (b : UInt8) : (escapeByte b).1 = isSpecial b := by
  unfold escapeByte isSpecial
  split_ifs <;> simp_all

theorem escapeByte_rep (b : UInt8) (h : isSpecial b = true) : (escapeByte b).2 = rep b := by
  unfold escapeByte rep
  unfold isSpecial at h
  split_ifs <;> simp_all

theorem escapeLoop_spec (rest : Bytes) :
    ∀ (desc : Bytes) (j : Nat), j + 2 * rest.length ≤ desc.length →
      (escapeLoop rest desc j).1.take (escapeLoop rest desc j).2
        = desc.take j ++ escapeSpec rest := by
  induction rest with
  | nil => intro desc j _; simp [escapeLoop, escapeSpec]
  | cons c rest ih =>
    intro desc j h
    simp only [List.length_cons] at h
    by_cases hc : isSpecial c = true
    · have hf : (escapeByte c).1 = true := by rw [escapeByte_flag]; exact hc
      rw [escapeLoop, if_pos hf, ih _ _ (by simp; omega)]
      have h1 : ((desc.set j 92).set (j + 1) (escapeByte c).2).take (j + 1 + 1)
          = (desc.set j 92).take (j + 1) ++ [(escapeByte c).2] :=
        take_set_snoc _ _ _ (by simp; omega)
      rw [h1, take_set_snoc _ _ _ (by omega), escapeByte_rep c hc]
      simp [escapeSpec, encodeByte, hc]
    · have hf : ¬ (escapeByte c).1 = true := by rw [escapeByte_flag]; exact hc
      rw [escapeLoop, if_neg hf, ih _ _ (by simp; omega), take_set_snoc _ _ _ (by omega)]
      simp [escapeSpec, encodeByte, hc]

theorem escape_eq_spec (s : Bytes) : escape s = escapeSpec s := by
  unfold escape
  split_ifs with h
  · have : s = [] := List.length_eq_zero.mp h
    subst this; rfl
  · simp only
    rw [escapeLoop_spec s _ 0 (by simp; omega)]
    simp

theorem rep_inj (a b : UInt8) (ha : isSpecial a = true) (hb : isSpecial b = true)
    (h : rep a = rep b) : a = b := by
  unfold isSpecial at ha hb
  unfold rep at h
  simp only [Bool.or_eq_true, decide_eq_true_eq] at ha hb
  rcases ha with ((((ha | ha) | ha) | ha) | ha) | ha <;>
  rcases hb with ((((hb | hb) | hb) | hb) | hb) | hb <;>
  subst ha <;> subst hb <;> first | rfl | (exact absurd h (by decide))

theorem encodeByte_uniquely_decodable (a b : UInt8) (x y : Bytes)
    (h : encodeByte a ++ x = encodeByte b ++ y) : a = b ∧ x = y := by
  unfold encodeByte at h
  by_cases ha : isSpecial a = true <;> by_cases hb : isSpecial b = true
  · rw [if_pos ha, if_pos hb] at h
    simp only [List.cons_append, List.nil_append, List.cons.injEq, true_and] at h
    exact ⟨rep_inj a b ha hb h.1, h.2⟩
  · rw [if_pos ha, if_neg hb] at h
    simp only [List.cons_append, List.nil_append, List.cons.injEq] at h
    exact absurd (show isSpecial b = true by rw [← h.1]; decide) hb
  · rw [if_neg ha, if_pos hb] at h
    simp only [List.cons_append, List.nil_append, List.cons.injEq] at h
    exact absurd (show isSpecial a = true by rw [h.1]; decide) ha
  · rw [if_neg ha, if_neg hb] at h
    simp only [List.cons_append, List.nil_append, List.cons.injEq] at h
    exact h

theorem encodeByte_ne_nil (a : UInt8) : encodeByte a ≠ [] := by
  unfold encodeByte; split_ifs <;> simp

theorem escapeSpec_injective : ∀ (a b : Bytes), escapeSpec a = escapeSpec b → a = b := by
  intro a
  induction a with
  | nil =>
    intro b h
    cases b with
    | nil => rfl
    | cons c t =>
      simp only [escapeSpec] at h
      have := encodeByte_ne_nil c
      cases hc : encodeByte c with
      | nil => exact absurd hc this
      | cons _ _ => rw [hc] at h; simp at h
  | cons c s ih =>
    intro b h
    cases b with
    | nil =>
      simp only [escapeSpec] at h
      have := encodeByte_ne_nil c
      cases hc : encodeByte c with
      | nil => exact absurd hc this
      | cons _ _ => rw [hc] at h; simp at h
    | cons d t =>
      simp only [escapeSpec] at h
      obtain ⟨h1, h2⟩ := encodeByte_uniquely_decodable c d _ _ h
      rw [h1, ih t h2]

/-- C5: for every byte string `s`, `escape s` is the concatenation, over the
bytes of `s` in order, of backslash followed by the representative byte for CR,
LF, backslash, single quote, double quote and SUB (SUB is represented by `Z`),
and of the byte itself otherwise; and the single-quoted literal built for the
five bytes a, quote, b, backslash, c is quote, a, backslash, quote, b,
backslash, backslash, c, quote. -/
theorem escape_refines_spec :
    (∀ s : Bytes, escape s = escapeSpec s)
    ∧ (∀ b : UInt8, encodeByte b
        = if b = 13 ∨ b = 10 ∨ b = 92 ∨ b = 39 ∨ b = 34 ∨ b = 26
          then [92, if b = 26 then 90 else b] else [b])
    ∧ formatValue (some [97, 39, 98, 92, 99]) = [39, 97, 92, 39, 98, 92, 92, 99, 39] := by
  refine ⟨escape_eq_spec, ?_, by decide⟩
  intro b
  simp only [encodeByte, isSpecial, rep, Bool.or_eq_true, decide_eq_true_eq, or_assoc]

/-- C10: `escape` is injective: two byte strings with the same escaped form are
equal. -/
theorem escape_injective (a b : Bytes) (h : escape a = escape b) : a = b :=
  escapeSpec_injective a b (by rw [← escape_eq_spec, ← escape_eq_spec]; exact h)

/-- C10 at the three bytes a, double quote, b. -/
theorem escape_injective_witness :
    escape [97, 34, 98] = escape [97, 34, 98] ∧ ([97, 34, 98] : Bytes) = [97, 34, 98] :=
  ⟨rfl, escape_injective [97, 34, 98] [97, 34, 98] rfl⟩

/-! ## The chunk loop -/

theorem wrapInt_eq_self (x : Int) (h1 : -9223372036854775808 ≤ x) (h2 : x < 9223372036854775808) :
    wrapInt x = x := by
  unfold wrapInt
  rw [Int.emod_eq_of_lt (by omega) (by omega)]
  omega

theorem chunkLoop_step {u min max r : Int} (hr : InRange min max r) (fuel : Nat) (i : Int)
    (hi : min ≤ i) (hlt : i < max) :
    chunkLoop u min max r (fuel + 1) i
      = (chunkLoop u min max r fuel (i + r)).map (fun rest => chunkAt u min max r i :: rest) := by
  obtain ⟨h1, h2, h3⟩ := hr
  have w1 : wrapInt (i + r) = i + r := wrapInt_eq_self _ (by omega) (by omega)
  have w2 : wrapInt (i + r - 1) = i + r - 1 := wrapInt_eq_self _ (by omega) (by omega)
  simp only [chunkLoop, if_pos hlt, w1, w2, chunkAt]

theorem chunkLoop_done {u min max r : Int} (fuel : Nat) (i : Int) (hge : max ≤ i) :
    chunkLoop u min max r (fuel + 1) i = some [] := by
  simp only [chunkLoop, if_neg (not_lt.mpr hge)]

theorem chunkLoop_terminates {u min max r : Int} (hr : InRange min max r) :
    ∀ (fuel : Nat) (i : Int), min ≤ i → (max - i).toNat < fuel →
      ∃ cs, chunkLoop u min max r fuel i = some cs := by
  intro fuel
  induction fuel with
  | zero => intro i _ h; omega
  | succ n ih =>
    intro i hi hf
    by_cases hlt : i < max
    · obtain ⟨cs, hcs⟩ := ih (i + r) (by have := hr.step_pos; omega) (by have := hr.step_pos; omega)
      exact ⟨_, by rw [chunkLoop_step hr n i hi hlt, hcs]; rfl⟩
    · exact ⟨[], chunkLoop_done n i (not_lt.mp hlt)⟩

theorem chunkLoop_mem {u min max r : Int} (hr : InRange min max r) :
    ∀ (fuel : Nat) (i : Int) (cs : List (Int × Int)), min ≤ i →
      chunkLoop u min max r fuel i = some cs →
      ∀ c ∈ cs, ∃ s, i ≤ s ∧ s < max ∧ c = chunkAt u min max r s := by
  intro fuel
  induction fuel with
  | zero => intro i cs _ h; simp [chunkLoop] at h
  | succ n ih =>
    intro i cs hi h c hc
    by_cases hlt : i < max
    · rw [chunkLoop_step hr n i hi hlt] at h
      cases hrest : chunkLoop u min max r n (i + r) with
      | none => rw [hrest] at h; simp at h
      | some rest =>
        rw [hrest] at h
        simp only [Option.map_some', Option.some.injEq] at h
        subst h
        rcases List.mem_cons.mp hc with hc | hc
        · exact ⟨i, le_refl _, hlt, hc⟩
        · have hp := hr.step_pos
          obtain ⟨s, h1, h2, h3⟩ := ih (i + r) rest (by omega) hrest c hc
          exact ⟨s, by omega, h2, h3⟩
    · rw [chunkLoop_done n i (not_lt.mp hlt)] at h
      simp only [Option.some.injEq] at h
      subst h
      simp at hc

theorem chunkLoop_pairwise {u min max r : Int} (hr : InRange min max r)
    (R : Int × Int → Int × Int → Prop)
    (hR : ∀ s t, min ≤ s → s + r ≤ t → t < max →
      R (chunkAt u min max r s) (chunkAt u min max r t)) :
    ∀ (fuel : Nat) (i : Int) (cs : List (Int × Int)), min ≤ i →
      chunkLoop u min max r fuel i = some cs → cs.Pairwise R := by
  intro fuel
  induction fuel with
  | zero => intro i cs _ h; simp [chunkLoop] at h
  | succ n ih =>
    intro i cs hi h
    by_cases hlt : i < max
    · rw [chunkLoop_step hr n i hi hlt] at h
      cases hrest : chunkLoop u min max r n (i + r) with
      | none => rw [hrest] at h; simp at h
      | some rest =>
        rw [hrest] at h
        simp only [Option.map_some', Option.some.injEq] at h
        subst h
        have hp := hr.step_pos
        refine List.Pairwise.cons ?_ (ih (i + r) rest (by omega) hrest)
        intro d hd
        obtain ⟨t, h1, h2, h3⟩ := chunkLoop_mem hr n (i + r) rest (by omega) hrest d hd
        rw [h3]
        exact hR i t hi h1 h2
    · rw [chunkLoop_done n i (not_lt.mp hlt)] at h
      simp only [Option.some.injEq] at h
      subst h
      exact List.Pairwise.nil

theorem chunkLoop_head {u min max r : Int} (hr : InRange min max r) (fuel : Nat) (i : Int)
    (cs : List (Int × Int)) (hi : min ≤ i) (hlt : i < max)
    (h : chunkLoop u min max r fuel i = some cs) :
    cs.head? = some (chunkAt u min max r i) := by
  cases fuel with
  | zero => simp [chunkLoop] at h
  | succ n =>
    rw [chunkLoop_step hr n i hi hlt] at h
    cases hrest : chunkLoop u min max r n (i + r) with
    | none => rw [hrest] at h; simp at h
    | some rest =>
      rw [hrest] at h
      simp only [Option.map_some', Option.some.injEq] at h
      subst h
      rfl

theorem chunkLoop_last {u min max r : Int} (hr : InRange min max r) :
    ∀ (fuel : Nat) (i : Int) (cs : List (Int × Int)), min ≤ i → i < max →
      chunkLoop u min max r fuel i = some cs →
      ∃ s, i ≤ s ∧ s < max ∧ max ≤ s + r ∧ (∃ n : Nat, s = i + n * r)
        ∧ cs.getLast? = some (chunkAt u min max r s) := by
  intro fuel
  induction fuel with
  | zero => intro i cs _ _ h; simp [chunkLoop] at h
  | succ n ih =>
    intro i cs hi hlt h
    rw [chunkLoop_step hr n i hi hlt] at h
    cases hrest : chunkLoop u min max r n (i + r) with
    | none => rw [hrest] at h; simp at h
    | some rest =>
      rw [hrest] at h
      simp only [Option.map_some', Option.some.injEq] at h
      subst h
      have hp := hr.step_pos
      by_cases hnext : i + r < max
      · obtain ⟨s, h1, h2, h3, ⟨k, hk⟩, h4⟩ := ih (i + r) rest (by omega) hnext hrest
        refine ⟨s, by omega, h2, h3, ⟨k + 1, ?_⟩, ?_⟩
        · rw [hk]; push_cast; ring
        · cases rest with
          | nil => simp at h4
          | cons a t => rw [List.getLast?_cons_cons]; exact h4
      · cases n with
        | zero => simp [chunkLoop] at hrest
        | succ m =>
          rw [chunkLoop_done m (i + r) (not_lt.mp hnext)] at hrest
          simp only [Option.some.injEq] at hrest
          subst hrest
          exact ⟨i, le_refl _, hlt, not_lt.mp hnext, ⟨0, by simp⟩, rfl⟩

theorem last_index_remainder (min max r s : Int) (n : Nat) (hs : s = min + n * r)
    (h1 : s < max) (h2 : max ≤ s + r) (hnd : (max - min) % r ≠ 0) :
    (max - min) % r = max - s := by
  have hsplit : max - min = (max - s) + (n : Int) * r := by rw [hs]; ring
  have hmod : (max - min) % r = (max - s) % r := by
    rw [hsplit, Int.add_mul_emod_self]
  have hlt : max - s < r := by
    rcases lt_or_eq_of_le (show max - s ≤ r by omega) with h | h
    · exact h
    · exfalso
      apply hnd
      rw [hmod, h, Int.emod_self]
  rw [hmod, Int.emod_eq_of_lt (by omega) hlt]

theorem chunkAt_disjoint {min max r : Int} (hs : 0 ≤ min ∨ max < -1) (hp : 1 ≤ r)
    (s t : Int) (h1 : min ≤ s) (h2 : s + r ≤ t) (h3 : t < max) (k : Int) :
    ¬ (chunkHolds (chunkAt (-1) min max r s) k = true
        ∧ chunkHolds (chunkAt (-1) min max r t) k = true) := by
  have ht : t ≠ min := by omega
  have ht1 : t ≠ -1 := by omega
  have hs1 : ¬ (s + r - 1 > max) := by omega
  have hs2 : s + r - 1 ≠ -1 := by omega
  have ha : chunkHolds (chunkAt (-1) min max r s) k = true → k ≤ s + r - 1 := by
    unfold chunkHolds chunkAt whereClause
    simp only [if_neg hs1]
    split_ifs <;> simp [Where.holds] <;> omega
  have hb : chunkHolds (chunkAt (-1) min max r t) k = true → t ≤ k := by
    unfold chunkHolds chunkAt whereClause
    simp only [if_neg ht]
    split_ifs <;> simp [Where.holds] <;> omega
  rintro ⟨x, y⟩
  have := ha x
  have := hb y
  omega

theorem digitByte_inj (a b : Nat) (ha : a < 10) (hb : b < 10) (h : digitByte a = digitByte b) :
    a = b := by
  interval_cases a <;> interval_cases b <;> first | rfl | exact absurd h (by decide)

theorem digitByte_ne_minus (a : Nat) (ha : a < 10) : digitByte a ≠ 45 := by
  interval_cases a <;> decide

theorem map_digitByte_inj : ∀ (l1 l2 : List Nat), (∀ x ∈ l1, x < 10) → (∀ x ∈ l2, x < 10) →
    l1.map digitByte = l2.map digitByte → l1 = l2 := by
  intro l1
  induction l1 with
  | nil => intro l2 _ _ h; cases l2 with
    | nil => rfl
    | cons _ _ => simp at h
  | cons a t ih =>
    intro l2 h1 h2 h
    cases l2 with
    | nil => simp at h
    | cons b u =>
      simp only [List.map_cons, List.cons.injEq] at h
      have hab := digitByte_inj a b (h1 a (by simp)) (h2 b (by simp)) h.1
      have := ih u (fun x hx => h1 x (by simp [hx])) (fun x hx => h2 x (by simp [hx])) h.2
      rw [hab, this]

theorem formatNat_eq_map (n : Nat) :
    ∃ l : List Nat, (∀ x ∈ l, x < 10) ∧ formatNat n = l.map digitByte
      ∧ Nat.ofDigits 10 l.reverse = n := by
  unfold formatNat
  split_ifs with h
  · exact ⟨[0], by simp, by simp [digitByte], by simp [h]⟩
  · refine ⟨(Nat.digits 10 n).reverse, ?_, rfl, ?_⟩
    · intro x hx
      exact Nat.digits_lt_base (by norm_num) (List.mem_reverse.mp hx)
    · rw [List.reverse_reverse, Nat.ofDigits_digits]

theorem formatNat_injective (n m : Nat) (h : formatNat n = formatNat m) : n = m := by
  obtain ⟨l1, a1, b1, c1⟩ := formatNat_eq_map n
  obtain ⟨l2, a2, b2, c2⟩ := formatNat_eq_map m
  rw [b1, b2] at h
  have := map_digitByte_inj l1 l2 a1 a2 h
  rw [← c1, ← c2, this]

theorem formatNat_no_minus (n : Nat) : ∀ b ∈ formatNat n, b ≠ 45 := by
  obtain ⟨l, a, b, _⟩ := formatNat_eq_map n
  rw [b]
  intro x hx
  obtain ⟨d, hd, rfl⟩ := List.mem_map.mp hx
  exact digitByte_ne_minus d (a d hd)

theorem formatNat_ne_nil (n : Nat) : formatNat n ≠ [] := by
  unfold formatNat
  split_ifs with h
  · simp
  · simp [Nat.digits_eq_nil_iff_eq_zero, h]

theorem formatInt_injective (z w : Int) (h : formatInt z = formatInt w) : z = w := by
  unfold formatInt at h
  split_ifs at h with hz hw hw
  · simp only [List.cons.injEq, true_and] at h
    have := formatNat_injective _ _ h
    omega
  · exact absurd rfl (formatNat_no_minus w.natAbs 45 (by rw [← h]; simp))
  · exact absurd rfl (formatNat_no_minus z.natAbs 45 (by rw [h]; simp))
  · have := formatNat_injective _ _ h
    omega

theorem chunkAt_suffix_ne {min max r : Int} (hs : 0 ≤ min ∨ max < -1) (hp : 1 ≤ r)
    (s t : Int) (h1 : min ≤ s) (h2 : s + r ≤ t) (h3 : t < max) :
    fileSuffix (chunkAt (-1) min max r s).1 (chunkAt (-1) min max r s).2
      ≠ fileSuffix (chunkAt (-1) min max r t).1 (chunkAt (-1) min max r t).2 := by
  have ht : t ≠ min := by omega
  have ht1 : t ≠ -1 := by omega
  have ht0 : t ≠ 0 := by omega
  have hst : s ≠ t := by omega
  have hb : fileSuffix (chunkAt (-1) min max r t).1 (chunkAt (-1) min max r t).2
      = 46 :: formatInt t := by
    unfold fileSuffix chunkAt
    simp only [if_neg ht]
    split_ifs <;> first | rfl | omega
  have ha : fileSuffix (chunkAt (-1) min max r s).1 (chunkAt (-1) min max r s).2
        = 46 :: formatInt 0
      ∨ fileSuffix (chunkAt (-1) min max r s).1 (chunkAt (-1) min max r s).2
        = 46 :: formatInt s
      ∨ fileSuffix (chunkAt (-1) min max r s).1 (chunkAt (-1) min max r s).2 = [] := by
    unfold fileSuffix chunkAt
    split_ifs <;> first
      | (left; rfl)
      | (right; left; rfl)
      | (right; right; rfl)
      | (exfalso; simp_all)
  rw [hb]
  rcases ha with ha | ha | ha <;> rw [ha] <;> intro h
  · simp only [List.cons.injEq, true_and] at h
    exact ht0 (formatInt_injective _ _ h).symm
  · simp only [List.cons.injEq, true_and] at h
    exact hst (formatInt_injective _ _ h)
  · simp at h

theorem filter_length_le_one {α : Type} (p : α → Bool) :
    ∀ l : List α, l.Pairwise (fun c d => ¬ (p c = true ∧ p d = true)) →
      (l.filter p).length ≤ 1 := by
  intro l
  induction l with
  | nil => intro _; simp
  | cons a t ih =>
    intro h
    rw [List.pairwise_cons] at h
    by_cases ha : p a = true
    · have ht : t.filter p = [] := by
        rw [List.filter_eq_nil_iff]
        intro d hd hpd
        exact h.1 d hd ⟨ha, hpd⟩
      simp [List.filter_cons, ha, ht]
    · simp only [List.filter_cons, ha]
      exact ih h.2

theorem dataFile_inj (schema table : Bytes) (s1 e1 s2 e2 : Int)
    (h : dataFile schema table s1 e1 = dataFile schema table s2 e2) :
    fileSuffix s1 e1 = fileSuffix s2 e2 := by
  unfold dataFile at h
  exact List.append_cancel_left (List.append_cancel_right h)

/-- C1: coverage fails.  For `min = 1`, `max = 10`, `rowsPerChunk = 3` the loop
of `dumpTable` emits `pk < 3`, `pk BETWEEN 4 AND 6` and `pk BETWEEN 7 AND 9`;
the keys 3 and 10, both within `[min, max]`, satisfy none of them. -/
theorem dumpTable_skips_rows :
    dumpTableLoop 1 10 3 10 = some [(-1, 3), (4, 6), (7, 9)]
    ∧ (1 : Int) ≤ 3 ∧ (3 : Int) ≤ 10
    ∧ [((-1 : Int), (3 : Int)), (4, 6), (7, 9)].any (fun c => chunkHolds c 3) = false
    ∧ [((-1 : Int), (3 : Int)), (4, 6), (7, 9)].any (fun c => chunkHolds c 10) = false := by
  decide

/-- C2 fails as stated: for `min = -4`, `max = 10`, `rowsPerChunk = 3` the second
loop index is `-1`, which the worker reads as unbounded, so the first two chunks
are `pk < -2` and `pk < 1` and the key `-4` satisfies both. -/
theorem chunks_overlap_at_sentinel :
    dumpTableLoop (-4) 10 3 10 = some [(-1, -2), (-1, 1), (2, 4), (5, 7), (8, 10)]
    ∧ ([((-1 : Int), (-2 : Int)), (-1, 1), (2, 4), (5, 7), (8, 10)].filter
        (fun c => chunkHolds c (-4))).length = 2 := by
  decide

/-- C2, amended: when the sentinel `-1` does not lie in `[min, max]` (that is,
`0 ≤ min` or `max < -1`) and the loop does not overflow, then for all `min`,
`max` (so for `min ≤ max`) and `rowsPerChunk ≥ 1` the loop of `dumpTable`
terminates and every integer `k` satisfies the WHERE predicate of at most one
emitted chunk. -/
theorem chunks_disjoint_off_sentinel (min max rowsPerChunk : Int) (fuel : Nat)
    (hstep : 1 ≤ rowsPerChunk) (hs : 0 ≤ min ∨ max < -1)
    (hlo : -9223372036854775808 ≤ min) (hhi : max + rowsPerChunk < 9223372036854775808)
    (hfuel : (max - min).toNat < fuel) :
    ∃ cs, dumpTableLoop min max rowsPerChunk fuel = some cs
      ∧ ∀ k : Int, (cs.filter (fun c => chunkHolds c k)).length ≤ 1 := by
  have hr : InRange min max rowsPerChunk := ⟨hlo, hstep, hhi⟩
  obtain ⟨cs, hcs⟩ := chunkLoop_terminates (u := -1) hr fuel min (le_refl _) hfuel
  refine ⟨cs, hcs, fun k => ?_⟩
  apply filter_length_le_one
  exact chunkLoop_pairwise hr _
    (fun s t h1 h2 h3 => chunkAt_disjoint hs hstep s t h1 h2 h3 k) fuel min cs (le_refl _) hcs

/-- C2, amended, at `min = 0`, `max = 10`, `rowsPerChunk = 3`. -/
theorem chunks_disjoint_off_sentinel_witness :
    ∃ cs, dumpTableLoop 0 10 3 11 = some cs
      ∧ ∀ k : Int, (cs.filter (fun c => chunkHolds c k)).length ≤ 1 :=
  chunks_disjoint_off_sentinel 0 10 3 11 (by decide) (Or.inl (by decide))
    (by decide) (by decide) (by decide)

/-- C3 fails as stated: for `min = 1`, `max = 6`, `rowsPerChunk = 3` the last
pair is `(4, 6)` in `dumpTable` and in `prepareDumpTable`; its end is the bound
6, not a sentinel, because the computed bound does not exceed `max`. -/
theorem last_chunk_bounded :
    dumpTableLoop 1 6 3 10 = some [(-1, 3), (4, 6)]
    ∧ ([((-1 : Int), (3 : Int)), (4, 6)].getLast?.map Prod.snd) ≠ some (-1)
    ∧ prepareDumpTableLoop 1 6 3 10 = some [(0, 3), (4, 6)]
    ∧ ([((0 : Int), (3 : Int)), (4, 6)].getLast?.map Prod.snd) ≠ some 0 := by
  decide

/-- C3, amended: for `min < max`, `rowsPerChunk ≥ 1` and no overflow, both chunk
loops terminate with a non-empty sequence whose first pair has the sentinel as
start (`-1` in `dumpTable`, `0` in `prepareDumpTable`); and when `rowsPerChunk`
does not divide `max - min`, the end of the last pair is `max` itself if
`(max - min) mod rowsPerChunk = rowsPerChunk - 1` (the computed bound is `max`)
and the sentinel otherwise (the computed bound exceeds `max`).  Nothing is
stated about the last pair when `rowsPerChunk` divides `max - min`. -/
theorem chunk_sequence_shape (min max rowsPerChunk : Int) (fuel : Nat)
    (hlt : min < max) (hstep : 1 ≤ rowsPerChunk)
    (hlo : -9223372036854775808 ≤ min) (hhi : max + rowsPerChunk < 9223372036854775808)
    (hfuel : (max - min).toNat < fuel) :
    (∃ cs, dumpTableLoop min max rowsPerChunk fuel = some cs
      ∧ cs ≠ []
      ∧ cs.head?.map Prod.fst = some (-1)
      ∧ ((max - min) % rowsPerChunk ≠ 0 →
          cs.getLast?.map Prod.snd
            = some (if (max - min) % rowsPerChunk = rowsPerChunk - 1 then max else -1)))
    ∧ (∃ cs, prepareDumpTableLoop min max rowsPerChunk fuel = some cs
      ∧ cs ≠ []
      ∧ cs.head?.map Prod.fst = some 0
      ∧ ((max - min) % rowsPerChunk ≠ 0 →
          cs.getLast?.map Prod.snd
            = some (if (max - min) % rowsPerChunk = rowsPerChunk - 1 then max else 0))) := by
  have hr : InRange min max rowsPerChunk := ⟨hlo, hstep, hhi⟩
  have key : ∀ u : Int, ∃ cs, chunkLoop u min max rowsPerChunk fuel min = some cs
      ∧ cs ≠ []
      ∧ cs.head?.map Prod.fst = some u
      ∧ ((max - min) % rowsPerChunk ≠ 0 →
          cs.getLast?.map Prod.snd
            = some (if (max - min) % rowsPerChunk = rowsPerChunk - 1 then max else u)) := by
    intro u
    obtain ⟨cs, hcs⟩ := chunkLoop_terminates (u := u) hr fuel min (le_refl _) hfuel
    have hhead := chunkLoop_head hr fuel min cs (le_refl _) hlt hcs
    obtain ⟨s, _, h2, h3, ⟨n, hn⟩, h4⟩ := chunkLoop_last hr fuel min cs (le_refl _) hlt hcs
    refine ⟨cs, hcs, ?_, ?_, ?_⟩
    · intro h; rw [h] at hhead; simp at hhead
    · rw [hhead]; simp [chunkAt]
    · intro hnd
      have hrem := last_index_remainder min max rowsPerChunk s n hn h2 h3 hnd
      have hbound := Int.emod_lt_of_pos (max - min) (show 0 < rowsPerChunk by omega)
      rw [hrem] at hbound
      rw [h4, hrem]
      simp only [chunkAt, Option.map_some', Option.some.injEq]
      by_cases hx : max - s = rowsPerChunk - 1
      · have hle : ¬ (s + rowsPerChunk - 1 > max) := by omega
        rw [if_pos hx, if_neg hle]
        omega
      · have hgt : s + rowsPerChunk - 1 > max := by omega
        rw [if_neg hx, if_pos hgt]
  exact ⟨key (-1), key 0⟩

/-- C3, amended, at `min = 1`, `max = 5`, `rowsPerChunk = 3`: the pairs are
`(-1, 3)`, `(4, -1)` in `dumpTable` and `(0, 3)`, `(4, 0)` in
`prepareDumpTable`. -/
theorem chunk_sequence_shape_witness :
    (∃ cs, dumpTableLoop 1 5 3 5 = some cs
      ∧ cs ≠ []
      ∧ cs.head?.map Prod.fst = some (-1)
      ∧ cs.getLast?.map Prod.snd = some (-1))
    ∧ (∃ cs, prepareDumpTableLoop 1 5 3 5 = some cs
      ∧ cs ≠ []
      ∧ cs.head?.map Prod.fst = some 0
      ∧ cs.getLast?.map Prod.snd = some 0) :=
  match chunk_sequence_shape 1 5 3 5 (by decide) (by decide) (by decide) (by decide)
    (by decide) with
  | ⟨⟨cs, a1, a2, a3, a4⟩, ⟨ds, b1, b2, b3, b4⟩⟩ =>
    ⟨⟨cs, a1, a2, a3, (a4 (by decide)).trans (by decide)⟩,
     ⟨ds, b1, b2, b3, (b4 (by decide)).trans (by decide)⟩⟩

/-- C9 fails as stated: for `min = -2`, `max = 1`, `rowsPerChunk = 1` the chunks
are `(-1, -2)`, `(-1, -1)` and `(0, 0)`; the first and the third both get the
suffix `.0`, so the third chunk's file replaces the first one's. -/
theorem suffix_collision :
    dumpTableLoop (-2) 1 1 10 = some [(-1, -2), (-1, -1), (0, 0)]
    ∧ fileSuffix (-1) (-2) = fileSuffix 0 0
    ∧ dataFile (str "s") (str "t") (-1) (-2) = dataFile (str "s") (str "t") 0 0 := by
  decide

/-- C9, amended: when the sentinel `-1` does not lie in `[min, max]` (`0 ≤ min`
or `max < -1`) and the loop does not overflow, then for `rowsPerChunk ≥ 1` the
loop of `dumpTable` terminates and the suffixes, and so the data-file names,
that `dumpTableData` derives for the emitted chunks are pairwise distinct. -/
theorem suffixes_distinct_off_sentinel (schema table : Bytes) (min max rowsPerChunk : Int)
    (fuel : Nat) (hstep : 1 ≤ rowsPerChunk) (hs : 0 ≤ min ∨ max < -1)
    (hlo : -9223372036854775808 ≤ min) (hhi : max + rowsPerChunk < 9223372036854775808)
    (hfuel : (max - min).toNat < fuel) :
    ∃ cs, dumpTableLoop min max rowsPerChunk fuel = some cs
      ∧ (cs.map (fun c => fileSuffix c.1 c.2)).Nodup
      ∧ (cs.map (fun c => dataFile schema table c.1 c.2)).Nodup := by
  have hr : InRange min max rowsPerChunk := ⟨hlo, hstep, hhi⟩
  obtain ⟨cs, hcs⟩ := chunkLoop_terminates (u := -1) hr fuel min (le_refl _) hfuel
  have hp := chunkLoop_pairwise hr
    (fun c d => fileSuffix c.1 c.2 ≠ fileSuffix d.1 d.2)
    (fun s t h1 h2 h3 => chunkAt_suffix_ne hs hstep s t h1 h2 h3) fuel min cs (le_refl _) hcs
  refine ⟨cs, hcs, ?_, ?_⟩
  · rw [List.Nodup, List.pairwise_map]
    exact hp
  · rw [List.Nodup, List.pairwise_map]
    exact hp.imp (fun hne heq => hne (dataFile_inj schema table _ _ _ _ heq))

/-- C9, amended, at `min = 0`, `max = 10`, `rowsPerChunk = 3`. -/
theorem suffixes_distinct_off_sentinel_witness :
    ∃ cs, dumpTableLoop 0 10 3 11 = some cs
      ∧ (cs.map (fun c => fileSuffix c.1 c.2)).Nodup
      ∧ (cs.map (fun c => dataFile (str "s") (str "t") c.1 c.2)).Nodup :=
  suffixes_distinct_off_sentinel (str "s") (str "t") 0 10 3 11 (by decide)
    (Or.inl (by decide)) (by decide) (by decide) (by decide)

/-! ## discoverRowsPerChunk -/

theorem chunkLoop_zero_step (u min max : Int) (hlo : -9223372036854775808 ≤ min)
    (hhi : max < 9223372036854775808) :
    ∀ (fuel : Nat) (i : Int), min ≤ i → i < max → chunkLoop u min max 0 fuel i = none := by
  intro fuel
  induction fuel with
  | zero => intro i _ _; rfl
  | succ n ih =>
    intro i h1 h2
    have hw : wrapInt (i + 0) = i := by
      rw [Int.add_zero]
      exact wrapInt_eq_self i (by omega) (by omega)
    simp only [chunkLoop, if_pos h2, hw, ih i h1 h2, Option.map_none']

theorem dumpTable_small (avgRowLength : Int) (dataLength : Nat) (min max : Int) (fuel : Nat)
    (h : dataLength < fileLimit) :
    dumpTable avgRowLength dataLength min max fuel = some [(-1, -1)]
    ∧ whereClause (-1) (-1) = Where.all ∧ fileSuffix (-1) (-1) = [] := by
  refine ⟨?_, by decide, by decide⟩
  simp only [dumpTable, if_pos h]

theorem discoverRowsPerChunk_wide_rows : discoverRowsPerChunk 200000 102400 = 0 := by
  decide

theorem discoverRowsPerChunk_scenario : discoverRowsPerChunk 100 102400 = 1024 := by
  decide

/-- C4: the result is not clamped.  For `avgRowLength = 100` and the limit
`fileLimit = 102400` the function returns the floor 1024, as the claim says;
for `avgRowLength = 200000` it returns 0, where the claim says the floor
clamped to at least 1, that is 1.  With this step the chunk loop of `dumpTable`
never finishes: for a table of 2000000 bytes with keys 1 to 10 there is no
result, whatever the fuel. -/
theorem rowsPerChunk_not_clamped :
    discoverRowsPerChunk 100 102400 = 1024
    ∧ discoverRowsPerChunk 200000 102400 = 0
    ∧ discoverRowsPerChunk 200000 102400 ≠ max (102400 / 200000) 1
    ∧ ¬ (1 ≤ discoverRowsPerChunk 200000 102400)
    ∧ ∀ fuel : Nat, dumpTable 200000 2000000 1 10 fuel = none := by
  refine ⟨by decide, by decide, by decide, by decide, ?_⟩
  intro fuel
  have hl : ((fileLimit : Nat) : Int) = 102400 := by decide
  have hd : ¬ (2000000 < fileLimit) := by decide
  simp only [dumpTable, if_neg hd, hl, discoverRowsPerChunk_wide_rows, dumpTableLoop]
  exact chunkLoop_zero_step (-1) 1 10 (by decide) (by decide) fuel 1 (le_refl _) (by decide)

/-! ## The dump worker -/

theorem rowsLoop_all_scanned (limit : Nat) (table colsstr : Bytes) :
    ∀ (rows : List (List (Option Bytes))) (st : DumpState),
      rowsLoop limit table colsstr st (rows.map some)
        = Outcome.returned
            (finalFlush (batchLoop limit table colsstr st (rows.map formatRow))).file := by
  intro rows
  induction rows with
  | nil => intro st; rfl
  | cons r rest ih => intro st; exact ih _

theorem rowsLoop_scan_failure (limit : Nat) (table colsstr : Bytes) :
    ∀ (pre : List (List (Option Bytes))) (post : List (Option (List (Option Bytes))))
      (st : DumpState),
      rowsLoop limit table colsstr st (pre.map some ++ none :: post)
        = Outcome.returned (batchLoop limit table colsstr st (pre.map formatRow)).file := by
  intro pre post
  induction pre with
  | nil => intro st; rfl
  | cons r rest ih => intro st; exact ih _

theorem stringsJoin_cons (t : Bytes) (ts : List Bytes) :
    stringsJoin (t :: ts) (str ",\n") = t ++ tailJoin ts := by
  induction ts generalizing t with
  | nil => simp [stringsJoin, tailJoin]
  | cons u us ih => simp [stringsJoin, tailJoin, ih u]

theorem insertHeader_length_pos (table colsstr : Bytes) :
    0 < (insertHeader table colsstr).length := by
  simp [insertHeader, str]

theorem batchLoop_continue (limit : Nat) (table colsstr : Bytes) :
    ∀ (ts : List Bytes) (st : DumpState), 0 < st.buffer.length →
      st.buffer.length + (tailJoin ts).length ≤ limit →
      batchLoop limit table colsstr st ts
        = { buffer := st.buffer ++ tailJoin ts, file := st.file } := by
  intro ts
  induction ts with
  | nil => intro st _ _; simp [batchLoop, tailJoin]
  | cons t rest ih =>
    intro st hpos hfit
    have hsep : (str ",\n").length = 2 := by decide
    simp only [tailJoin, List.length_append, hsep] at hfit
    have h1 : ¬ (st.buffer.length + t.length > limit) := by omega
    have h2 : ¬ (st.buffer.length = 0) := by omega
    have hstep : writeRow limit table colsstr st t
        = { buffer := st.buffer ++ str ",\n" ++ t, file := st.file } := by
      simp only [writeRow, if_neg h1, if_neg h2]
    have := ih { buffer := st.buffer ++ str ",\n" ++ t, file := st.file }
      (by simp only [List.length_append]; omega) (by simp only [List.length_append, hsep]; omega)
    simp only [batchLoop] at this ⊢
    rw [List.foldl_cons, hstep, this]
    simp [tailJoin]

theorem batchLoop_single_statement (limit : Nat) (table colsstr : Bytes) (tuples : List Bytes)
    (hne : tuples ≠ [])
    (hfit : (insertHeader table colsstr).length + (stringsJoin tuples (str ",\n")).length
      ≤ limit) :
    batchLoop limit table colsstr { buffer := [], file := [] } tuples
      = { buffer := insertHeader table colsstr ++ stringsJoin tuples (str ",\n"), file := [] } := by
  cases tuples with
  | nil => exact absurd rfl hne
  | cons t ts =>
    rw [stringsJoin_cons] at hfit ⊢
    simp only [List.length_append] at hfit
    have h1 : ¬ (([] : Bytes).length + t.length > limit) := by simp; omega
    have hstep : writeRow limit table colsstr { buffer := [], file := [] } t
        = { buffer := insertHeader table colsstr ++ t, file := [] } := by
      simp only [writeRow, if_neg h1]
      simp
    have hpos := insertHeader_length_pos table colsstr
    have := batchLoop_continue limit table colsstr ts
      { buffer := insertHeader table colsstr ++ t, file := [] }
      (by simp only [List.length_append]; omega)
      (by simp only [List.length_append]; omega)
    simp only [batchLoop] at this ⊢
    rw [List.foldl_cons, hstep, this]
    simp

theorem writeTuples_single_statement (limit : Nat) (table colsstr : Bytes)
    (tuples : List Bytes) (hne : tuples ≠ [])
    (hfit : (insertHeader table colsstr).length + (stringsJoin tuples (str ",\n")).length
      ≤ limit) :
    writeTuples limit table colsstr tuples = insertStatement table colsstr tuples := by
  have hpos := insertHeader_length_pos table colsstr
  unfold writeTuples
  rw [batchLoop_single_statement limit table colsstr tuples hne hfit]
  unfold finalFlush insertStatement
  rw [if_pos (by simp only [List.length_append]; omega)]
  simp

theorem writeTuples_oversized_first (limit : Nat) (table colsstr : Bytes) (t : Bytes)
    (h : limit < t.length) :
    writeTuples limit table colsstr [t]
      = str ";\n" ++ (insertHeader table colsstr ++ t ++ str ";\n") := by
  have hpos := insertHeader_length_pos table colsstr
  have h1 : ([] : Bytes).length + t.length > limit := by simp; omega
  simp only [writeTuples, batchLoop, List.foldl_cons, List.foldl_nil, writeRow, if_pos h1]
  simp only [finalFlush, List.length_nil, if_true, List.nil_append]
  rw [if_pos (by simp only [List.length_append]; omega)]

theorem insertStatements_head (table colsstr : Bytes) (tuples : List Bytes) (out : Bytes)
    (hne : tuples ≠ []) (h : IsInsertStatements table colsstr tuples out) :
    out.head? = some 73 := by
  obtain ⟨runs, _, hjoin, hout⟩ := h
  cases runs with
  | nil => simp at hjoin; exact absurd hjoin.symm hne.symm
  | cons r rs =>
    rw [hout]
    simp [insertStatement, insertHeader, str]

theorem escapeSpec_replicate_x (n : Nat) :
    escapeSpec (List.replicate n 120) = List.replicate n 120 := by
  induction n with
  | zero => rfl
  | succ k ih =>
    rw [List.replicate_succ, escapeSpec, ih]
    rfl

theorem formatRow_long_length (n : Nat) :
    (formatRow [some (List.replicate n 120)]).length = n + 4 := by
  simp only [formatRow, List.map_cons, List.map_nil, stringsJoin, formatValue,
    escape_eq_spec, escapeSpec_replicate_x, List.length_append, List.length_replicate,
    List.length_cons, List.length_nil]
  have h1 : (str "(").length = 1 := by decide
  have h2 : (str ")").length = 1 := by decide
  rw [h1, h2]
  omega

theorem oversized_not_statements (limit : Nat) (table colsstr t : Bytes)
    (h : limit < t.length) :
    ¬ IsInsertStatements table colsstr [t] (writeTuples limit table colsstr [t]) := by
  intro hs
  have hhead := insertStatements_head table colsstr [t] _ (by simp) hs
  rw [writeTuples_oversized_first limit table colsstr t h] at hhead
  have h59 : (str ";\n" ++ (insertHeader table colsstr ++ t ++ str ";\n")).head? = some 59 :=
    rfl
  rw [h59] at hhead
  exact absurd hhead (by decide)

theorem stringsJoin_snoc (sep t : Bytes) :
    ∀ cur : List Bytes, cur ≠ [] →
      stringsJoin (cur ++ [t]) sep = stringsJoin cur sep ++ sep ++ t := by
  intro cur
  induction cur with
  | nil => intro h; exact absurd rfl h
  | cons a rest ih =>
    intro _
    cases rest with
    | nil => simp [stringsJoin]
    | cons b rest2 =>
      have := ih (by simp)
      simp only [List.cons_append] at this ⊢
      simp only [stringsJoin, this, List.append_assoc]

theorem batchLoop_statements (limit : Nat) (table colsstr : Bytes) :
    ∀ (ts : List Bytes) (st : DumpState) (runs : List (List Bytes)) (cur : List Bytes),
      cur ≠ [] → (∀ run ∈ runs, run ≠ []) →
      st.file = (runs.map (insertStatement table colsstr)).flatten →
      st.buffer = insertHeader table colsstr ++ stringsJoin cur (str ",\n") →
      ∃ (runs2 : List (List Bytes)) (cur2 : List Bytes),
        cur2 ≠ [] ∧ (∀ run ∈ runs2, run ≠ [])
        ∧ runs2.flatten ++ cur2 = runs.flatten ++ cur ++ ts
        ∧ (batchLoop limit table colsstr st ts).file
            = (runs2.map (insertStatement table colsstr)).flatten
        ∧ (batchLoop limit table colsstr st ts).buffer
            = insertHeader table colsstr ++ stringsJoin cur2 (str ",\n") := by
  intro ts
  induction ts with
  | nil =>
    intro st runs cur hc hr hf hb
    exact ⟨runs, cur, hc, hr, by simp, hf, hb⟩
  | cons t rest ih =>
    intro st runs cur hc hr hf hb
    have hpos := insertHeader_length_pos table colsstr
    have hbl : 0 < st.buffer.length := by rw [hb, List.length_append]; omega
    by_cases hflush : st.buffer.length + t.length > limit
    · have hstep : writeRow limit table colsstr st t
          = { buffer := insertHeader table colsstr ++ t,
              file := st.file ++ (st.buffer ++ str ";\n") } := by
        simp only [writeRow, if_pos hflush]
        simp
      obtain ⟨runs2, cur2, h1, h2, h3, h4, h5⟩ := ih
        { buffer := insertHeader table colsstr ++ t,
          file := st.file ++ (st.buffer ++ str ";\n") }
        (runs ++ [cur]) [t] (by simp)
        (by
          intro run hrun
          rcases List.mem_append.mp hrun with h | h
          · exact hr run h
          · simp only [List.mem_singleton] at h; rw [h]; exact hc)
        (by simp [hf, hb, insertStatement])
        (by simp [stringsJoin])
      refine ⟨runs2, cur2, h1, h2, ?_, ?_, ?_⟩
      · rw [h3]; simp
      · simp only [batchLoop, List.foldl_cons, hstep] at h4 ⊢; exact h4
      · simp only [batchLoop, List.foldl_cons, hstep] at h5 ⊢; exact h5
    · have hne : ¬ (st.buffer.length = 0) := by omega
      have hstep : writeRow limit table colsstr st t
          = { buffer := st.buffer ++ str ",\n" ++ t, file := st.file } := by
        simp only [writeRow, if_neg hflush, if_neg hne]
      obtain ⟨runs2, cur2, h1, h2, h3, h4, h5⟩ := ih
        { buffer := st.buffer ++ str ",\n" ++ t, file := st.file }
        runs (cur ++ [t]) (by simp) hr hf
        (by simp [hb, stringsJoin_snoc (str ",\n") t cur hc])
      refine ⟨runs2, cur2, h1, h2, ?_, ?_, ?_⟩
      · rw [h3]; simp
      · simp only [batchLoop, List.foldl_cons, hstep] at h4 ⊢; exact h4
      · simp only [batchLoop, List.foldl_cons, hstep] at h5 ⊢; exact h5

theorem finalFlush_file_of_pos (st : DumpState) (h : 0 < st.buffer.length) :
    (finalFlush st).file = st.file ++ (st.buffer ++ str ";\n") := by
  simp only [finalFlush, gt_iff_lt, if_pos h]

theorem writeTuples_statements (limit : Nat) (table colsstr : Bytes) (t : Bytes)
    (ts : List Bytes) (hfit : t.length ≤ limit) :
    IsInsertStatements table colsstr (t :: ts) (writeTuples limit table colsstr (t :: ts)) := by
  have hpos := insertHeader_length_pos table colsstr
  have h1 : ¬ (([] : Bytes).length + t.length > limit) := by simp; omega
  have hstep : writeRow limit table colsstr { buffer := [], file := [] } t
      = { buffer := insertHeader table colsstr ++ t, file := [] } := by
    simp only [writeRow, if_neg h1]
    simp
  obtain ⟨runs2, cur2, c1, c2, c3, c4, c5⟩ := batchLoop_statements limit table colsstr ts
    { buffer := insertHeader table colsstr ++ t, file := [] } [] [t] (by simp)
    (by simp) (by simp) (by simp [stringsJoin])
  have hb : 0 < (batchLoop limit table colsstr
      { buffer := insertHeader table colsstr ++ t, file := [] } ts).buffer.length := by
    rw [c5, List.length_append]; omega
  refine ⟨runs2 ++ [cur2], ?_, ?_, ?_⟩
  · intro run hrun
    rcases List.mem_append.mp hrun with h | h
    · exact c2 run h
    · simp only [List.mem_singleton] at h; rw [h]; exact c1
  · simpa using c3
  · have hfin : writeTuples limit table colsstr (t :: ts)
        = (finalFlush (batchLoop limit table colsstr
            { buffer := insertHeader table colsstr ++ t, file := [] } ts)).file := by
      simp only [writeTuples, batchLoop, List.foldl_cons, hstep]
    rw [hfin, finalFlush_file_of_pos _ hb, c4, c5]
    simp [insertStatement]

theorem writeTuples_nil (limit : Nat) (table colsstr : Bytes) :
    writeTuples limit table colsstr [] = [] := rfl

theorem dumpTableData_oversized_first (table : Bytes) (cols : List Bytes)
    (row : List (Option Bytes)) (h : bufferLimit < (formatRow row).length) :
    dumpTableData false false table cols [some row]
      = Outcome.returned
          (str ";\n" ++ (insertHeader table (stringsJoin (cols.map quoteIdentifier) (str ","))
            ++ formatRow row ++ str ";\n"))
    ∧ ¬ IsInsertStatements table (stringsJoin (cols.map quoteIdentifier) (str ","))
        [formatRow row]
        (str ";\n" ++ (insertHeader table (stringsJoin (cols.map quoteIdentifier) (str ","))
            ++ formatRow row ++ str ";\n")) := by
  have hw := writeTuples_oversized_first bufferLimit table
    (stringsJoin (cols.map quoteIdentifier) (str ",")) (formatRow row) h
  have hns := oversized_not_statements bufferLimit table
    (stringsJoin (cols.map quoteIdentifier) (str ",")) (formatRow row) h
  have hrows := rowsLoop_all_scanned bufferLimit table
    (stringsJoin (cols.map quoteIdentifier) (str ",")) [row] { buffer := [], file := [] }
  rw [hw] at hns
  refine ⟨?_, hns⟩
  rw [← hw]
  simp only [dumpTableData, Bool.false_eq_true, if_false]
  exact hrows

theorem long_row_exceeds_limit :
    bufferLimit < (formatRow [some (List.replicate 1100 120)]).length := by
  rw [formatRow_long_length]
  decide

/-- C6: the file-format contract fails on the code.  With the program's
`bufferLimit = 1024`, table `t`, column `c` and a single row whose only value
is 1100 bytes `x`, `dumpTableData` writes the two bytes `;` and line feed
before the INSERT statement: the flush inside the loop does not test for an
empty buffer.  The file is not a concatenation of complete INSERT statements. -/
theorem batching_emits_bare_terminator :
    dumpTableData false false (str "t") [str "c"] [some [some (List.replicate 1100 120)]]
      = Outcome.returned
          (str ";\n" ++ (insertHeader (str "t")
              (stringsJoin ([str "c"].map quoteIdentifier) (str ","))
            ++ formatRow [some (List.replicate 1100 120)] ++ str ";\n"))
    ∧ ¬ IsInsertStatements (str "t") (stringsJoin ([str "c"].map quoteIdentifier) (str ","))
        [formatRow [some (List.replicate 1100 120)]]
        (str ";\n" ++ (insertHeader (str "t")
              (stringsJoin ([str "c"].map quoteIdentifier) (str ","))
            ++ formatRow [some (List.replicate 1100 120)] ++ str ";\n")) :=
  dumpTableData_oversized_first (str "t") [str "c"] [some (List.replicate 1100 120)]
    long_row_exceeds_limit

/-- C7: for every non-empty sequence of rows that all scan, such that the length
of the header `INSERT INTO <table> (<cols>) VALUES` with its line break plus
the row tuples joined by comma and line feed does not exceed `bufferLimit`,
`dumpTableData` writes exactly one INSERT statement: the header, the tuples in
order joined by comma and line feed, and the terminator.  There is no
intermediate flush: if the stream broke right after these rows, the file would
still be empty. -/
theorem single_statement_within_limit (table : Bytes) (cols : List Bytes)
    (rows : List (List (Option Bytes))) (hne : rows ≠ [])
    (hfit : (insertHeader table (stringsJoin (cols.map quoteIdentifier) (str ","))).length
        + (stringsJoin (rows.map formatRow) (str ",\n")).length ≤ bufferLimit) :
    dumpTableData false false table cols (rows.map some)
      = Outcome.returned
          (insertHeader table (stringsJoin (cols.map quoteIdentifier) (str ","))
            ++ stringsJoin (rows.map formatRow) (str ",\n") ++ str ";\n")
    ∧ dumpTableData false false table cols (rows.map some ++ [none])
      = Outcome.returned [] := by
  have hne2 : rows.map formatRow ≠ [] := by
    intro h
    exact hne (List.map_eq_nil_iff.mp h)
  have hb := batchLoop_single_statement bufferLimit table
    (stringsJoin (cols.map quoteIdentifier) (str ",")) (rows.map formatRow) hne2 hfit
  have hw := writeTuples_single_statement bufferLimit table
    (stringsJoin (cols.map quoteIdentifier) (str ",")) (rows.map formatRow) hne2 hfit
  constructor
  · simp only [dumpTableData, Bool.false_eq_true, if_false]
    rw [rowsLoop_all_scanned]
    unfold writeTuples insertStatement at hw
    rw [hw]
  · simp only [dumpTableData, Bool.false_eq_true, if_false]
    rw [rowsLoop_scan_failure, hb]

/-- C7 at table `t`, column `c` and two rows with the values 1 and 2. -/
theorem single_statement_within_limit_witness :
    dumpTableData false false (str "t") [str "c"]
        ([[some (str "1")], [some (str "2")]].map some)
      = Outcome.returned
          (insertHeader (str "t") (stringsJoin ([str "c"].map quoteIdentifier) (str ","))
            ++ stringsJoin ([[some (str "1")], [some (str "2")]].map formatRow) (str ",\n")
            ++ str ";\n")
    ∧ dumpTableData false false (str "t") [str "c"]
        ([[some (str "1")], [some (str "2")]].map some ++ [none])
      = Outcome.returned [] :=
  single_statement_within_limit (str "t") [str "c"] [[some (str "1")], [some (str "2")]]
    (by decide) (by decide)

/-- C8 fails as stated: when the second row fails to scan, `dumpTableData`
returns normally (here with an empty file: the first row, still in the buffer,
is dropped); it does not end in the fatal outcome that a failing query has. -/
theorem scan_failure_returns :
    dumpTableData false false (str "t") [str "c"] [some [some (str "1")], none]
      = Outcome.returned []
    ∧ dumpTableData false false (str "t") [str "c"] [some [some (str "1")], none]
      ≠ Outcome.fatal
    ∧ dumpTableData true false (str "t") [str "c"] [some [some (str "1")], none]
      = Outcome.fatal := by
  decide

/-- C8, amended: a failing query (or a failing file creation) is fatal; a row
that fails to scan is not: `dumpTableData` then returns normally, and the file
holds what the batching loop had flushed for the rows before the failing one
(the statement still in the buffer is not written, and no final flush runs). -/
theorem scan_failure_outcome (table : Bytes) (cols : List Bytes)
    (pre : List (List (Option Bytes))) (post : List (Option (List (Option Bytes)))) :
    dumpTableData false false table cols (pre.map some ++ none :: post)
      = Outcome.returned
          (batchLoop bufferLimit table (stringsJoin (cols.map quoteIdentifier) (str ","))
            { buffer := [], file := [] } (pre.map formatRow)).file
    ∧ (∀ createErr rows, dumpTableData true createErr table cols rows = Outcome.fatal)
    ∧ (∀ rows, dumpTableData false true table cols rows = Outcome.fatal) := by
  refine ⟨?_, ?_, ?_⟩
  · simp only [dumpTableData, Bool.false_eq_true, if_false]
    exact rowsLoop_scan_failure bufferLimit table _ pre post _
  · intro createErr rows
    simp [dumpTableData]
  · intro rows
    simp [dumpTableData]

end Tidump
